import Mathlib

/-!
Verification of the rendering and input-decoding core of the kibi text
editor (src/row.rs, src/editor.rs, src/syntax.rs).

Bytes are modelled as natural numbers (every byte of the program is < 256);
strings are lists of bytes; Unicode scalar values are natural numbers.
The external crate function unicode_width::UnicodeWidthChar::width is
modelled as a parameter `w : Nat → Option Nat` of every operation that
uses it; `uwidth` below is a concrete instance used for evaluation.
-/

namespace Kibi

/-! ## UTF-8 encoding and lossy decoding (std lib behavior used by row.rs) -/

/-- UTF-8 encoding of a Unicode scalar value, as in Rust char::encode_utf8. -/
def utf8Enc (c : Nat) : List Nat :=
  if c < 0x80 then [c]
  else if c < 0x800 then [0xC0 + c / 64, 0x80 + c % 64]
  else if c < 0x10000 then [0xE0 + c / 4096, 0x80 + c / 64 % 64, 0x80 + c % 64]
  else [0xF0 + c / 262144, 0x80 + c / 4096 % 64, 0x80 + c / 64 % 64, 0x80 + c % 64]

/-- Number of bytes of the UTF-8 encoding, as in Rust char::len_utf8. -/
def utf8Len (c : Nat) : Nat := (utf8Enc c).length

/-- UTF-8 encoding of a sequence of scalar values. -/
def utf8Encode (cs : List Nat) : List Nat := (cs.map utf8Enc).flatten

/-- Total UTF-8 byte length of a sequence of scalar values. -/
def totalLen8 (cs : List Nat) : Nat := (cs.map utf8Len).sum

/-- Whether a byte is a UTF-8 continuation byte (0x80..=0xBF). -/
def isCont (b : Nat) : Bool := 0x80 ≤ b && b < 0xC0

/-- Allowed second byte after a three-byte leader, per the table used by
Rust str::from_utf8 (excludes overlong encodings and surrogates). -/
def utf8Cont3 (b0 b1 : Nat) : Bool :=
  if b0 = 0xE0 then 0xA0 ≤ b1 && b1 < 0xC0
  else if b0 = 0xED then 0x80 ≤ b1 && b1 < 0xA0
  else isCont b1

/-- Allowed second byte after a four-byte leader, per the table used by
Rust str::from_utf8 (excludes overlong encodings and values above 0x10FFFF). -/
def utf8Cont4 (b0 b1 : Nat) : Bool :=
  if b0 = 0xF0 then 0x90 ≤ b1 && b1 < 0xC0
  else if b0 = 0xF4 then 0x80 ≤ b1 && b1 < 0x90
  else isCont b1

/-- Scalar value assembled from a two-byte sequence. -/
def cp2 (b0 b1 : Nat) : Nat := (b0 - 0xC0) * 64 + (b1 - 0x80)

/-- Scalar value assembled from a three-byte sequence. -/
def cp3 (b0 b1 b2 : Nat) : Nat := (b0 - 0xE0) * 4096 + (b1 - 0x80) * 64 + (b2 - 0x80)

/-- Scalar value assembled from a four-byte sequence. -/
def cp4 (b0 b1 b2 b3 : Nat) : Nat :=
  (b0 - 0xF0) * 262144 + (b1 - 0x80) * 4096 + (b2 - 0x80) * 64 + (b3 - 0x80)

/-- Lossy UTF-8 decoding with explicit fuel; one unit of fuel is spent per
decoded character, and at least one byte is consumed per character, so
fuel equal to the byte length always suffices. On an invalid sequence,
decoding resumes at the first byte that broke it. -/
def utf8DecodeLossyF : Nat → List Nat → List Nat
  | 0, _ => []
  | _ + 1, [] => []
  | fuel + 1, b0 :: r =>
    if b0 < 0x80 then b0 :: utf8DecodeLossyF fuel r
    else if b0 < 0xC2 then 0xFFFD :: utf8DecodeLossyF fuel r
    else if b0 < 0xE0 then
      match r with
      | [] => [0xFFFD]
      | b1 :: r1 =>
        if isCont b1 then cp2 b0 b1 :: utf8DecodeLossyF fuel r1
        else 0xFFFD :: utf8DecodeLossyF fuel r
    else if b0 < 0xF0 then
      match r with
      | [] => [0xFFFD]
      | b1 :: r1 =>
        if utf8Cont3 b0 b1 then
          match r1 with
          | [] => [0xFFFD]
          | b2 :: r2 =>
            if isCont b2 then cp3 b0 b1 b2 :: utf8DecodeLossyF fuel r2
            else 0xFFFD :: utf8DecodeLossyF fuel r1
        else 0xFFFD :: utf8DecodeLossyF fuel r
    else if b0 < 0xF5 then
      match r with
      | [] => [0xFFFD]
      | b1 :: r1 =>
        if utf8Cont4 b0 b1 then
          match r1 with
          | [] => [0xFFFD]
          | b2 :: r2 =>
            if isCont b2 then
              match r2 with
              | [] => [0xFFFD]
              | b3 :: r3 =>
                if isCont b3 then cp4 b0 b1 b2 b3 :: utf8DecodeLossyF fuel r3
                else 0xFFFD :: utf8DecodeLossyF fuel r2
            else 0xFFFD :: utf8DecodeLossyF fuel r1
        else 0xFFFD :: utf8DecodeLossyF fuel r
    else 0xFFFD :: utf8DecodeLossyF fuel r

/-- Lossy UTF-8 decoding of a byte sequence into scalar values, modelling
String::from_utf8_lossy followed by str::chars (row.rs line 63). Each
maximal invalid subpart is replaced by one U+FFFD (0xFFFD), following the
substitution policy of Rust's std. -/
def utf8DecodeLossy (bs : List Nat) : List Nat := utf8DecodeLossyF bs.length bs

/-- A byte sequence is valid UTF-8 exactly when re-encoding its lossy
decoding reproduces it. -/
def Utf8Valid (bs : List Nat) : Prop := utf8Encode (utf8DecodeLossy bs) = bs

/-- Concrete model of unicode_width::UnicodeWidthChar::width, restricted to
the ranges exercised in this development: none for C0/C1 control characters
and DEL, 0 for combining diacritical marks, 2 for the wide CJK ranges, 1
otherwise. Only used to evaluate concrete examples; all general theorems
are quantified over an arbitrary width function. -/
def uwidth (c : Nat) : Option Nat :=
  if c < 0x20 then none
  else if c < 0x7F then some 1
  else if c < 0xA0 then none
  else if 0x300 ≤ c ∧ c ≤ 0x36F then some 0
  else if 0x1100 ≤ c ∧ c ≤ 0x115F then some 2
  else if 0x2E80 ≤ c ∧ c ≤ 0x9FFF ∧ c ≠ 0x303F then some 2
  else if 0xAC00 ≤ c ∧ c ≤ 0xD7A3 then some 2
  else if 0xF900 ≤ c ∧ c ≤ 0xFAFF then some 2
  else if 0xFF00 ≤ c ∧ c ≤ 0xFF60 then some 2
  else some 1

/-! ## Highlight types and states (row.rs, syntax.rs) -/

/-- The highlight state of a row (row.rs, enum HlState). `string q` carries
the opening quote byte. -/
inductive HlState where
  | normal
  | multiLineComment
  | string (q : Nat)
  | multiLineString
  deriving DecidableEq, Repr

/-- Type of syntax highlighting for a rendered byte (syntax.rs, enum HlType).
`mtch` is the Match variant (a reserved word in Lean). -/
inductive HlType where
  | normal
  | number
  | mtch
  | string
  | mlString
  | comment
  | mlComment
  | keyword1
  | keyword2
  deriving DecidableEq, Repr

/-- Configuration for syntax highlighting (syntax.rs, struct Conf). Strings
are byte lists; sl_string_quotes holds scalar values (Rust chars). -/
structure SyntaxConf where
  highlightNumbers : Bool
  slStringQuotes : List Nat
  slCommentStart : List (List Nat)
  mlCommentDelims : Option (List Nat × List Nat)
  mlStringDelim : Option (List Nat)
  keywords : List (HlType × List (List Nat))
  deriving DecidableEq, Repr

/-- A row of the editor (row.rs, struct Row). render is the rendered byte
string; hl has one entry per byte of render. -/
structure Row where
  chars : List Nat
  render : List Nat
  cx2rx : List Nat
  rx2cx : List Nat
  hl : List HlType
  hl_state : HlState
  matchSegment : Option (Nat × Nat)
  deriving DecidableEq, Repr

/-- Create a new row containing the characters chars (row.rs, Row::new). -/
def Row.new (chars : List Nat) : Row :=
  { chars := chars, render := [], cx2rx := [0], rx2cx := [], hl := [],
    hl_state := .normal, matchSegment := none }

/-! ## The rendering pass of Row::update (row.rs lines 62-71) -/

/-- Number of rendered columns of scalar value c at column rx:
tab - (rx % tab) for a tab, c.width().unwrap_or(1) otherwise
(row.rs line 65). -/
def rendCols (w : Nat → Option Nat) (tab rx c : Nat) : Nat :=
  if c = 9 then tab - rx % tab else (w c).getD 1

/-- The loop body of Row::update accumulated over the decoded characters:
returns (render, cx2rx, rx2cx) built from column rx and byte offset cx,
with the trailing sentinel entries pushed at the end (row.rs line 71). -/
def renderPassAux (w : Nat → Option Nat) (tab : Nat) :
    List Nat → Nat → Nat → List Nat × List Nat × List Nat
  | [], rx, cx => ([], [rx], [cx])
  | c :: cs, rx, cx =>
    let n := rendCols w tab rx c
    let rest := renderPassAux w tab cs (rx + n) (cx + utf8Len c)
    ((if c = 9 then List.replicate n 32 else utf8Enc c) ++ rest.1,
     List.replicate (utf8Len c) rx ++ rest.2.1,
     List.replicate n cx ++ rest.2.2)

/-- Byte offset (into the decoded string) at which the n-th decoded
character starts. -/
def byteOff : List Nat → Nat → Nat
  | _, 0 => 0
  | [], _ + 1 => 0
  | c :: cs, n + 1 => utf8Len c + byteOff cs n

/-- Render column at which the n-th decoded character starts, when the scan
begins at column rx. -/
def rxAt (w : Nat → Option Nat) (tab : Nat) : List Nat → Nat → Nat → Nat
  | _, rx, 0 => rx
  | [], rx, _ + 1 => rx
  | c :: cs, rx, n + 1 => rxAt w tab cs (rx + rendCols w tab rx c) n

/-- Total number of render columns of the decoded characters cs when the
scan begins at column rx (the rendered width of the line for rx = 0). -/
def colsOf (w : Nat → Option Nat) (tab : Nat) : List Nat → Nat → Nat
  | [], _ => 0
  | c :: cs, rx => rendCols w tab rx c + colsOf w tab cs (rx + rendCols w tab rx c)

/-! ## The tokenizer pass Row::update_syntax (row.rs lines 84-173) -/

/-- Rust u8::is_ascii_whitespace: space, tab, newline, form feed, carriage
return. -/
def isAsciiWhitespace (c : Nat) : Bool := c = 32 || c = 9 || c = 10 || c = 12 || c = 13

/-- Rust u8::is_ascii_punctuation. -/
def isAsciiPunct (c : Nat) : Bool :=
  (33 ≤ c && c ≤ 47) || (58 ≤ c && c ≤ 64) || (91 ≤ c && c ≤ 96) || (123 ≤ c && c ≤ 126)

/-- Rust u8::is_ascii_digit. -/
def isDigit (c : Nat) : Bool := 48 ≤ c && c ≤ 57

/-- Rust char::is_ascii_control (used on chars of the render string): C0
control characters and DEL. -/
def isAsciiControl (c : Nat) : Bool := c < 32 || c = 127

/-- Whether c is an ASCII separator (row.rs, fn is_sep). -/
def isSep (c : Nat) : Bool :=
  isAsciiWhitespace c || c == 0 || (isAsciiPunct c && c != 95)

/-- The closure find_str of update_syntax (row.rs line 95): whether the
bytes of line starting at i begin with s. -/
def findStrAt (line : List Nat) (i : Nat) (s : List Nat) : Bool :=
  i + s.length ≤ line.length && (line.drop i).take s.length == s

/-- prev_sep of update_syntax (row.rs line 144): the scan position is at
start of line or right after a separator. -/
def prevSep (line : List Nat) (i : Nat) : Bool :=
  i == 0 || isSep (line.getD (i - 1) 0)

/-- The closure s_filter of update_syntax (row.rs line 158): the byte right
after the keyword is a separator, or the keyword ends the line. -/
def sFilter (line : List Nat) (i : Nat) (kw : List Nat) : Bool :=
  match line.get? (i + kw.length) with
  | none => true
  | some c => isSep c

/-- The highlight entries produced by the keyword for-loops of
update_syntax (row.rs lines 159-163) at scan position i: for each
configured keyword that matches at i and passes s_filter, keyword.len()
copies of its highlight type, in configuration order. -/
def kwChunk (conf : SyntaxConf) (line : List Nat) (i : Nat) : List HlType :=
  conf.keywords.flatMap fun p =>
    (p.2.filter fun kw => findStrAt line i kw && sFilter line i kw).flatMap fun kw =>
      List.replicate kw.length p.1

/-- The keyword highlight entries guarded by prev_sep (row.rs lines
154-164): empty unless the scan position follows a separator or starts the
line. -/
def kwPart (conf : SyntaxConf) (line : List Nat) (i : Nat) : List HlType :=
  if prevSep line i then kwChunk conf line i else []

/-- One arm of the for-loop over multi-line delimiters (row.rs lines
104-125); returns the pushed highlight entries and the next state when the
arm fires (continue), none when it falls through. -/
def mlHandle (delims : Option (List Nat × List Nat)) (mstate : HlState) (mtype : HlType)
    (line : List Nat) (i : Nat) (st : HlState) : Option (List HlType × HlState) :=
  match delims with
  | none => none
  | some (s, e) =>
    if st = mstate then
      some (if findStrAt line i e then (List.replicate e.length mtype, .normal)
            else ([mtype], mstate))
    else if st = .normal ∧ findStrAt line i s then
      some (List.replicate s.length mtype, mstate)
    else none

/-- The multi-line comment arm followed by the multi-line string arm, in
the iteration order of the source (row.rs lines 104-107). -/
def mlStep (conf : SyntaxConf) (line : List Nat) (i : Nat) (st : HlState) :
    Option (List HlType × HlState) :=
  match mlHandle conf.mlCommentDelims .multiLineComment .mlComment line i st with
  | some out => some out
  | none =>
    mlHandle (conf.mlStringDelim.map fun d => (d, d)) .multiLineString .mlString line i st

/-- One iteration of the syntax_loop of update_syntax at scan position
i = hl.length (row.rs lines 93-167): the highlight entries appended by the
iteration and the state it continues with. -/
def syntaxStep (conf : SyntaxConf) (line : List Nat) (hl : List HlType) (st : HlState) :
    List HlType × HlState :=
  let i := hl.length
  if st = .normal ∧ conf.slCommentStart.any (fun s => findStrAt line i s) then
    (List.replicate (line.length - i) .comment, st)
  else
    match mlStep conf line i st with
    | some out => out
    | none =>
      let c := line.getD i 0
      match st with
      | .string q =>
        if c = q then ([.string], .normal)
        else if c = 92 ∧ i ≠ line.length - 1 then ([.string, .string], st)
        else ([.string], st)
      | _ =>
        if conf.slStringQuotes.contains c then ([.string], .string c)
        else
          if conf.highlightNumbers ∧
              ((isDigit c ∧ prevSep line i) ∨
                (i ≠ 0 ∧ hl.getD (i - 1) .normal = .number ∧ prevSep line i = false ∧
                  isSep c = false)) then
            ([.number], st)
          else
            (kwPart conf line i ++ [.normal], st)

/-- The while loop of update_syntax, run with explicit fuel; returns none
when the fuel is exhausted before hl covers the line (which models the
divergence of the source loop on configurations with empty multi-line
delimiters). -/
def syntaxLoop (conf : SyntaxConf) (line : List Nat) :
    Nat → List HlType → HlState → Option (List HlType × HlState)
  | 0, hl, st => if line.length ≤ hl.length then some (hl, st) else none
  | fuel + 1, hl, st =>
    if line.length ≤ hl.length then some (hl, st)
    else
      let out := syntaxStep conf line hl st
      syntaxLoop conf line fuel (hl ++ out.1) out.2

/-- Whether a state is the in-string state. -/
def HlState.isStr : HlState → Bool
  | .string _ => true
  | _ => false

/-- Row::update_syntax (row.rs lines 84-173) on the render bytes: runs the
syntax loop from an empty highlight vector, then resets a final string
state to normal (string state does not propagate to the next row, row.rs
lines 169-171). Returns the highlight vector and the stored/returned
state. -/
def updateHl (conf : SyntaxConf) (line : List Nat) (st : HlState) :
    Option (List HlType × HlState) :=
  (syntaxLoop conf line (2 * line.length + 4) [] st).map fun out =>
    (out.1, if out.2.isStr then .normal else out.2)

/-! ## Row::update and Row::get_char_size (row.rs lines 60-81) -/

/-- The pure core of Row::update: from the raw bytes, compute render,
cx2rx, rx2cx (rendering pass, row.rs lines 62-71) and then the highlight
vector and outgoing state (update_syntax, row.rs line 72). -/
def updateCore (w : Nat → Option Nat) (conf : SyntaxConf) (st : HlState) (tab : Nat)
    (chars : List Nat) : Option ((List Nat × List Nat × List Nat) × List HlType × HlState) :=
  (updateHl conf (renderPassAux w tab (utf8DecodeLossy chars) 0 0).1 st).map
    fun out => (renderPassAux w tab (utf8DecodeLossy chars) 0 0, out)

/-- Row::update (row.rs lines 60-73): recomputes the derived fields of the
row from its chars and returns the outgoing highlight state. chars and
match_segment are untouched. none models the divergence of update_syntax
on configurations with empty multi-line delimiters. -/
def Row.update (w : Nat → Option Nat) (r : Row) (conf : SyntaxConf) (st : HlState)
    (tab : Nat) : Option (Row × HlState) :=
  (updateCore w conf st tab r.chars).map fun out =>
    match out with
    | ((rend, a, b), hlv, st2) =>
      ({ r with render := rend, cx2rx := a, rx2cx := b, hl := hlv, hl_state := st2 }, st2)

/-- Row::get_char_size (row.rs lines 78-81), as a function of the rx2cx
array: the first positive difference rx2cx[j] - rx2cx[rx] for j > rx, or 1
if there is none. -/
def getCharSize (rx2cx : List Nat) (rx : Nat) : Nat :=
  ((((rx2cx.drop (rx + 1)).map fun cx => cx - rx2cx.getD rx 0).find?
    fun d => decide (0 < d)).getD 1)

/-! ## Row::draw (row.rs lines 179-211) -/

/-- Reset the formatting: the escape string of ansi_escape.rs used as
RESET_FMT in row.rs, as bytes (ESC [ m). -/
def RESET_FMT : List Nat := [27, 91, 109]

/-- Inverse video: the escape string of ansi_escape.rs used as
REVERSE_VIDEO in row.rs, as bytes (ESC [ 7 m). -/
def REVERSE_VIDEO : List Nat := [27, 91, 55, 109]

/-- The discriminant of an HlType (syntax.rs lines 12-22). -/
def HlType.disc : HlType → Nat
  | .normal => 39
  | .number => 31
  | .mtch => 46
  | .string => 32
  | .mlString => 132
  | .comment => 34
  | .mlComment => 134
  | .keyword1 => 33
  | .keyword2 => 35

/-- The ANSI color escape sequence written by Display for HlType
(syntax.rs line 27): ESC [ d m with d the discriminant modulo 100 (always
two digits here), as bytes. -/
def hlColor (t : HlType) : List Nat :=
  [27, 91, 48 + t.disc % 100 / 10, 48 + t.disc % 100 % 10, 109]

/-- Whether a Range contains rx (start ≤ rx < end), as used on
match_segment in Row::draw (row.rs line 193). -/
def segContains (seg : Nat × Nat) (rx : Nat) : Bool := seg.1 ≤ rx && rx < seg.2

/-- The body of the character loop of Row::draw (row.rs lines 183-208) for
one rendered character c with tokenizer highlight hl, given the
match segment, the current highlight type and the current column rx.
Returns the emitted bytes, the next current highlight type and the next
column. -/
def drawStep (w : Nat → Option Nat) (seg : Option (Nat × Nat)) (cur : HlType) (rx : Nat)
    (c : Nat) (hl : HlType) : List Nat × HlType × Nat :=
  let rx1 := rx + ((w c).getD 1)
  if isAsciiControl c then
    let rc := if c ≤ 26 then 64 + c else 63
    (REVERSE_VIDEO ++ utf8Enc rc ++ RESET_FMT ++
       (if cur ≠ HlType.normal then hlColor cur else []),
     cur, rx1)
  else
    let hl1 := match seg with
      | some s => if segContains s rx then HlType.mtch else hl
      | none => hl
    let pre := match seg with
      | some s => if segContains s rx = false ∧ rx = s.2 then RESET_FMT else []
      | none => []
    let trans := if cur ≠ hl1 then hlColor hl1 else []
    (pre ++ trans ++ utf8Enc c, (if cur ≠ hl1 then hl1 else cur), rx1)

/-- The character loop of Row::draw folded over the zipped characters and
highlight entries. -/
def drawLoop (w : Nat → Option Nat) (seg : Option (Nat × Nat)) :
    List (Nat × HlType) → HlType → Nat → List Nat
  | [], _, _ => []
  | (c, hl) :: rest, cur, rx =>
    let out := drawStep w seg cur rx c hl
    out.1 ++ drawLoop w seg rest out.2.1 out.2.2

/-- Row::draw (row.rs lines 179-211): draw the rendered characters from
offset, at most maxLen of them, zipped with the highlight entries skipped
by offset, starting from the Normal type and the column occupied by the
skipped characters; a format reset is appended at the end. -/
def Row.draw (w : Nat → Option Nat) (r : Row) (offset maxLen : Nat) : List Nat :=
  let cs := utf8DecodeLossy r.render
  let rx0 := ((cs.take offset).map fun c => (w c).getD 1).sum
  drawLoop w r.matchSegment
    (((cs.drop offset).take maxLen).zip (r.hl.drop offset)) HlType.normal rx0
  ++ RESET_FMT

/-! ## The input decoder (editor.rs, Editor::loop_until_keypress) -/

/-- Enum of arrow keys (editor.rs, enum AKey). -/
inductive AKey where
  | left
  | right
  | up
  | down
  deriving DecidableEq, Repr

/-- Enum of input keys (editor.rs, enum Key). endk is the End variant (a
reserved word in Lean). -/
inductive Key where
  | arrow (a : AKey)
  | ctrlArrow (a : AKey)
  | pageUp
  | pageDown
  | home
  | endk
  | delete
  | escape
  | char (b : Nat)
  deriving DecidableEq, Repr

/-- One result of bytes.next() on the byte source: a byte, no byte
available (Ok(0) read, end of the iterator), or an I/O error. -/
inductive InByte where
  | eof
  | err
  | byte (b : Nat)
  deriving DecidableEq, Repr

/-- bytes.next().transpose()? (editor.rs line 249): an error propagates,
otherwise the optional byte and the rest of the source. An exhausted
source keeps yielding no byte. -/
def nextByte : List InByte → Except Unit (Option Nat × List InByte)
  | [] => .ok (none, [])
  | .eof :: r => .ok (none, r)
  | .err :: _ => .error ()
  | .byte b :: r => .ok (some b, r)

/-- The digit arm of the escape-sequence decoder (editor.rs lines 259-279):
c is the digit byte already read, the source position is after it. -/
def decodeDigitArm (c0 : Nat) (s : List InByte) : Except Unit Key := do
  let d0 ← nextByte s
  let cd ←
    if c0 = 49 ∧ d0.1 = some 59 then do
      let c1 ← nextByte d0.2
      let d1 ← nextByte c1.2
      pure (c1.1, d1.1)
    else
      pure (some c0, d0.1)
  match cd with
  | (some c, some d) =>
    if d = 126 ∧ (c = 49 ∨ c = 55) then pure Key.home
    else if d = 126 ∧ (c = 52 ∨ c = 56) then pure Key.endk
    else if c = 51 ∧ d = 126 then pure Key.delete
    else if c = 53 ∧ d = 126 then pure Key.pageUp
    else if c = 54 ∧ d = 126 then pure Key.pageDown
    else if c = 53 ∧ d = 65 then pure (Key.ctrlArrow .up)
    else if c = 53 ∧ d = 66 then pure (Key.ctrlArrow .down)
    else if c = 53 ∧ d = 67 then pure (Key.ctrlArrow .right)
    else if c = 53 ∧ d = 68 then pure (Key.ctrlArrow .left)
    else pure Key.escape
  | _ => pure Key.escape

/-- The CSI/SS3 arm (editor.rs lines 252-285): b1 is the byte after ESC
(91 for the bracket, 79 for the letter O), the source position is after
it. -/
def decodeCsiArm (b1 : Nat) (s : List InByte) : Except Unit Key := do
  let b2 ← nextByte s
  match b2.1 with
  | some 65 => if b1 = 91 then pure (Key.arrow .up) else pure Key.escape
  | some 66 => if b1 = 91 then pure (Key.arrow .down) else pure Key.escape
  | some 67 => if b1 = 91 then pure (Key.arrow .right) else pure Key.escape
  | some 68 => if b1 = 91 then pure (Key.arrow .left) else pure Key.escape
  | some 72 => pure Key.home
  | some 70 => pure Key.endk
  | some 97 => if b1 = 79 then pure (Key.ctrlArrow .up) else pure Key.escape
  | some 98 => if b1 = 79 then pure (Key.ctrlArrow .down) else pure Key.escape
  | some 99 => if b1 = 79 then pure (Key.ctrlArrow .right) else pure Key.escape
  | some 100 => if b1 = 79 then pure (Key.ctrlArrow .left) else pure Key.escape
  | some c =>
    if b1 = 91 ∧ 48 ≤ c ∧ c ≤ 56 then decodeDigitArm c b2.2 else pure Key.escape
  | none => pure Key.escape

/-- One iteration of the loop of Editor::loop_until_keypress (editor.rs
lines 249-291): ok none when no byte is available (the loop polls again),
ok (some k) when a key is decoded, error when a read fails. -/
def readKeyOnce (input : List InByte) : Except Unit (Option Key) := do
  let b0 ← nextByte input
  match b0.1 with
  | none => pure none
  | some 27 => do
    let b1 ← nextByte b0.2
    match b1.1 with
    | some 91 => do pure (some (← decodeCsiArm 91 b1.2))
    | some 79 => do pure (some (← decodeCsiArm 79 b1.2))
    | _ => pure (some Key.escape)
  | some a => pure (some (Key.char a))

/-! ## Fixtures for concrete evaluations -/

/-- A syntax configuration with no highlighting rules. -/
def confNone : SyntaxConf := ⟨false, [], [], none, none, []⟩

/-- A syntax configuration with the double quote as single-line string
quote. -/
def confQuote : SyntaxConf := ⟨false, [34], [], none, none, []⟩

/-- A syntax configuration with multi-line comment delimiters
("/*", "*/"). -/
def confML : SyntaxConf := ⟨false, [], [], some ([47, 42], [42, 47]), none, []⟩

/-- A syntax configuration with the single keyword "fn" of type
Keyword1. -/
def confFn : SyntaxConf := ⟨false, [], [], none, none, [(HlType.keyword1, [[102, 110]])]⟩

/-- The bytes of the string "keyword1". -/
def kwd1 : List Nat := [107, 101, 121, 119, 111, 114, 100, 49]

/-- A syntax configuration with the single keyword "keyword1" of type
Keyword1. -/
def confKwd1 : SyntaxConf := ⟨false, [], [], none, none, [(HlType.keyword1, [kwd1])]⟩

/-- A syntax configuration with keyword "a-b" of type Keyword1 and keyword
"b" of type Keyword2. -/
def confAB : SyntaxConf :=
  ⟨false, [], [], none, none, [(HlType.keyword1, [[97, 45, 98]]), (HlType.keyword2, [[98]])]⟩

/-- A row holding the bytes "a\t" with stale derived fields. -/
def rowJunk1 : Row :=
  ⟨[97, 9], [1, 2, 3], [9], [9, 9], [HlType.comment], HlState.multiLineComment, some (1, 2)⟩

/-- A fresh row holding the bytes "a\t". -/
def rowJunk2 : Row := Row.new [97, 9]

/-- A row whose render is the single control character ESC (byte 27),
with a Normal highlight entry. -/
def rowEsc : Row := ⟨[27], [27], [0, 1], [0, 1], [HlType.normal], HlState.normal, none⟩

/-- The row computed by Row::update for the unterminated string row
made of a double quote followed by "abc", with confQuote. -/
def rowStr : Row :=
  ⟨[34, 97, 98, 99], [34, 97, 98, 99], [0, 1, 2, 3, 4], [0, 1, 2, 3, 4],
    List.replicate 4 HlType.string, HlState.normal, none⟩

/-- The row computed by Row::update for the row "a\tb" with tab width 4
and confNone. -/
def rowTab : Row :=
  ⟨[97, 9, 98], [97, 32, 32, 32, 98], [0, 1, 4, 5], [0, 1, 1, 1, 2, 3],
    List.replicate 5 HlType.normal, HlState.normal, none⟩

/-- The outputs of Row::update observed by the determinism claim: render,
cx2rx, rx2cx, hl, the stored state and the returned state. -/
def updateObs (out : Row × HlState) :
    List Nat × List Nat × List Nat × List HlType × HlState × HlState :=
  (out.1.render, out.1.cx2rx, out.1.rx2cx, out.1.hl, out.1.hl_state, out.2)

end Kibi

namespace Kibi

/-! ## General lemmas about the embedded operations -/

theorem utf8Len_pos (c : Nat) : 1 ≤ utf8Len c := by
  unfold utf8Len utf8Enc
  split_ifs <;> simp

theorem rendCols_pos {w : Nat → Option Nat} {tab c : Nat} (rx : Nat) (ht : 1 ≤ tab)
    (hc : c = 9 ∨ 1 ≤ (w c).getD 1) : 1 ≤ rendCols w tab rx c := by
  unfold rendCols
  by_cases h9 : c = 9
  · rw [if_pos h9]
    have h2 : rx % tab < tab := Nat.mod_lt rx ht
    omega
  · rw [if_neg h9]
    rcases hc with hc | hc
    · exact absurd hc h9
    · exact hc

theorem getCharSize_pos (l : List Nat) (rx : Nat) : 1 ≤ getCharSize l rx := by
  unfold getCharSize
  rcases hf : ((l.drop (rx + 1)).map fun cx => cx - l.getD rx 0).find?
      (fun d => decide (0 < d)) with _ | d
  · exact Nat.le_refl 1
  · have hp := List.find?_some hf
    simp only [decide_eq_true_eq] at hp
    simpa using hp

theorem updateHl_state_not_string {conf : SyntaxConf} {line : List Nat} {st : HlState}
    {hlv : List HlType} {st2 : HlState} (h : updateHl conf line st = some (hlv, st2)) :
    ∀ q, st2 ≠ HlState.string q := by
  unfold updateHl at h
  rcases ho : syntaxLoop conf line (2 * line.length + 4) [] st with _ | out
  · rw [ho] at h
    simp at h
  · rw [ho] at h
    simp only [Option.map_some'] at h
    injection h with h1
    injection h1 with h2 h3
    intro q hq
    rw [← h3] at hq
    rcases out with ⟨o1, o2⟩
    cases o2 <;> simp [HlState.isStr] at hq

/-- Unfolding of a successful Row::update into its components. -/
theorem update_inv {w : Nat → Option Nat} {r0 : Row} {conf : SyntaxConf} {st : HlState}
    {tab : Nat} {r : Row} {st2 : HlState}
    (h : Row.update w r0 conf st tab = some (r, st2)) :
    r.chars = r0.chars ∧ r.matchSegment = r0.matchSegment ∧
      r.render = (renderPassAux w tab (utf8DecodeLossy r0.chars) 0 0).1 ∧
      r.cx2rx = (renderPassAux w tab (utf8DecodeLossy r0.chars) 0 0).2.1 ∧
      r.rx2cx = (renderPassAux w tab (utf8DecodeLossy r0.chars) 0 0).2.2 ∧
      updateHl conf (renderPassAux w tab (utf8DecodeLossy r0.chars) 0 0).1 st =
        some (r.hl, st2) ∧
      r.hl_state = st2 := by
  unfold Row.update updateCore at h
  rcases hu : updateHl conf (renderPassAux w tab (utf8DecodeLossy r0.chars) 0 0).1 st
    with _ | out
  · rw [hu] at h
    simp at h
  · rw [hu] at h
    simp only [Option.map_some] at h
    rcases out with ⟨hlv, stx⟩
    injection h with h1
    injection h1 with h2 h3
    subst h3
    rw [← h2]
    exact ⟨rfl, rfl, rfl, rfl, rfl, rfl, rfl⟩

/-! ## Claim theorems -/

/-- C3 (code_bug evidence): for the row "is fn" with keyword "fn"
configured, Row::update yields a highlight vector of length 6 for a
render string of length 5, contradicting hl.len() = render.len() (and the
repository's own test expectations for this input). -/
theorem claim_C3 :
    (Row.update uwidth (Row.new [105, 115, 32, 102, 110]) confFn .normal 4).map
        (fun out => (out.1.hl.length, out.1.render.length)) = some (6, 5) := by
  rfl

/-- C4 (counterexample): after reading a lone trailing ESC with no further
byte available, the decoder returns the Escape key on the same poll; it
does not suspend, and an exhausted source mid-sequence is not turned into
a read error. -/
theorem claim_C4_cex :
    readKeyOnce [InByte.byte 27] = Except.ok (some Key.escape) ∧
      readKeyOnce [InByte.byte 27, InByte.eof] = Except.ok (some Key.escape) ∧
      Except.ok (some Key.escape) ≠ (Except.ok none : Except Unit (Option Key)) ∧
      Except.ok (some Key.escape) ≠ (Except.error () : Except Unit (Option Key)) := by
  refine ⟨rfl, rfl, ?_, ?_⟩
  · intro h
    injection h with h1
    exact Option.noConfusion h1
  · intro h
    exact Except.noConfusion h

/-- C4 (amended): when no byte at all is available the decoder emits no
key and the loop polls again; once ESC has been read, a missing
continuation byte does not suspend the decoder: it immediately returns the
Escape key (and end-of-stream mid-sequence likewise yields Escape, not an
error); an I/O read error at any read propagates fatally. -/
theorem claim_C4 :
    readKeyOnce [] = Except.ok none ∧
      (∀ rest, readKeyOnce (InByte.eof :: rest) = Except.ok none) ∧
      readKeyOnce [InByte.byte 27] = Except.ok (some Key.escape) ∧
      (∀ rest, readKeyOnce (InByte.byte 27 :: InByte.eof :: rest) =
        Except.ok (some Key.escape)) ∧
      (∀ rest, readKeyOnce (InByte.err :: rest) = Except.error ()) ∧
      (∀ rest, readKeyOnce (InByte.byte 27 :: InByte.err :: rest) = Except.error ()) :=
  ⟨rfl, fun _ => rfl, rfl, fun _ => rfl, fun _ => rfl, fun _ => rfl⟩

/-- C5: the state returned by Row::update (also stored as the row's carry
state) is never the in-string state, for every row content, syntax
configuration, incoming state, tab width and width table. -/
theorem claim_C5 (w : Nat → Option Nat) (r0 : Row) (conf : SyntaxConf) (st : HlState)
    (tab : Nat) (r : Row) (st2 : HlState)
    (h : Row.update w r0 conf st tab = some (r, st2)) :
    (∀ q, st2 ≠ HlState.string q) ∧ ∀ q, r.hl_state ≠ HlState.string q := by
  have hi := update_inv h
  refine ⟨updateHl_state_not_string hi.2.2.2.2.2.1, ?_⟩
  rw [hi.2.2.2.2.2.2]
  exact updateHl_state_not_string hi.2.2.2.2.2.1

/-- C5 (witness): the unterminated single-line string "abc preceded by a
double quote classifies every byte as String yet carries the Normal state
out, and the general theorem applies to it. -/
theorem claim_C5_witness :
    Row.update uwidth (Row.new [34, 97, 98, 99]) confQuote .normal 4 =
        some (rowStr, .normal) ∧
      rowStr.hl = List.replicate 4 HlType.string ∧
      ∀ q, HlState.normal ≠ HlState.string q :=
  ⟨rfl, rfl,
    (claim_C5 uwidth (Row.new [34, 97, 98, 99]) confQuote .normal 4 rowStr .normal rfl).1⟩

/-- C6: with block-comment delimiters ("/*", "*/"), updating "a /* open"
from the Normal state marks every byte of "/* open" as multi-line comment
and returns the in-block-comment state; updating "still open */ code" from
that state marks "still open */" as comment and " code" as Normal, and
returns the Normal state. -/
theorem claim_C6 :
    (Row.update uwidth (Row.new [97, 32, 47, 42, 32, 111, 112, 101, 110]) confML .normal 4).map
        (fun out => (out.1.hl, out.2)) =
      some (List.replicate 2 HlType.normal ++ List.replicate 7 HlType.mlComment,
        .multiLineComment) ∧
      (Row.update uwidth
          (Row.new [115, 116, 105, 108, 108, 32, 111, 112, 101, 110, 32, 42, 47,
            32, 99, 111, 100, 101])
          confML .multiLineComment 4).map (fun out => (out.1.hl, out.2)) =
        some (List.replicate 13 HlType.mlComment ++ List.replicate 5 HlType.normal,
          .normal) := by
  exact ⟨rfl, rfl⟩

/-- C9: after Row::update, get_char_size returns at least 1 at every
column index of rx2cx, including mid-tab and mid-character columns and the
trailing sentinel. -/
theorem claim_C9 (w : Nat → Option Nat) (r0 : Row) (conf : SyntaxConf) (st : HlState)
    (tab : Nat) (r : Row) (st2 : HlState) (rx : Nat)
    (_ : Row.update w r0 conf st tab = some (r, st2)) (_ : rx < r.rx2cx.length) :
    1 ≤ getCharSize r.rx2cx rx :=
  getCharSize_pos r.rx2cx rx

/-- C9 (witness): the theorem applied to the updated row "a\tb" at the
mid-tab column 2. -/
theorem claim_C9_witness : 1 ≤ getCharSize rowTab.rx2cx 2 :=
  claim_C9 uwidth (Row.new [97, 9, 98]) confNone .normal 4 rowTab .normal 2 rfl
    (by simp [rowTab])

/-- C10: Row::update is insensitive to the row's previous derived state:
two rows with identical chars but arbitrary differing render, mapping
arrays, highlight vector and stored state produce identical render, cx2rx,
rx2cx, hl, stored state and returned state. -/
theorem claim_C10 (w : Nat → Option Nat) (conf : SyntaxConf) (st : HlState) (tab : Nat)
    (r1 r2 : Row) (h : r1.chars = r2.chars) :
    (Row.update w r1 conf st tab).map updateObs = (Row.update w r2 conf st tab).map updateObs := by
  simp only [Row.update, h]
  cases updateCore w conf st tab r2.chars with
  | none => rfl
  | some out =>
    obtain ⟨⟨rend, a, b⟩, hlv, st2⟩ := out
    rfl

/-- C10 (witness): the theorem applied to a fresh row and a row with stale
derived fields holding the same bytes "a\t". -/
theorem claim_C10_witness :
    (Row.update uwidth rowJunk1 confNone .normal 4).map updateObs =
      (Row.update uwidth rowJunk2 confNone .normal 4).map updateObs :=
  claim_C10 uwidth confNone .normal 4 rowJunk1 rowJunk2 rfl

/-- C1 (counterexample): for the row "a" + U+0301 (combining acute, width
0) + "b", byte offset 1 starts a character, yet composing the two maps
sends it to 3: rx2cx[cx2rx[1]] = 3 ≠ 1. -/
theorem claim_C1_cex :
    (Row.update uwidth (Row.new [97, 204, 129, 98]) confNone .normal 4).map
        (fun out => (out.1.cx2rx, out.1.rx2cx)) = some ([0, 1, 1, 1, 2], [0, 3, 4]) ∧
      byteOff (utf8DecodeLossy [97, 204, 129, 98]) 1 = 1 ∧
      ([0, 3, 4] : List Nat).getD (([0, 1, 1, 1, 2] : List Nat).getD 1 0) 0 = 3 ∧
      (3 : Nat) ≠ 1 := by
  exact ⟨rfl, rfl, rfl, by decide⟩

/-- C2 (counterexample): for the single invalid byte 0xFF, the lossy
decoding is U+FFFD (three UTF-8 bytes), so cx2rx has length 4, not
chars.len() + 1 = 2; its last element (3) is likewise not the byte length
of chars. -/
theorem claim_C2_cex :
    (Row.update uwidth (Row.new [255]) confNone .normal 4).map
        (fun out => (out.1.cx2rx, out.1.rx2cx)) = some ([0, 0, 0, 1], [0, 3]) ∧
      (Row.new [255]).chars.length + 1 = 2 ∧ (4 : Nat) ≠ 2 ∧
      ([0, 3] : List Nat).getLastD 0 = 3 ∧ (3 : Nat) ≠ 1 := by
  exact ⟨rfl, rfl, by decide, rfl, by decide⟩

/-- C7 (counterexample): keywords "a-b" (Keyword1) and "b" (Keyword2) on
the line "a-b": the occurrence of "b" at byte 2 is preceded by the
separator "-" and followed by end of line, yet it is classified Keyword1
(inside the longer match), not with its configured class Keyword2. -/
theorem claim_C7_cex :
    isSep 45 = true ∧ findStrAt [97, 45, 98] 2 [98] = true ∧
      sFilter [97, 45, 98] 2 [98] = true ∧
      (Row.update uwidth (Row.new [97, 45, 98]) confAB .normal 4).map
        (fun out => out.1.hl.getD 2 .normal) = some HlType.keyword1 ∧
      HlType.keyword1 ≠ HlType.keyword2 := by
  exact ⟨rfl, rfl, rfl, rfl, by decide⟩

/-- C8 (counterexample): drawing a render string holding the single
control byte 27 (ESC) emits the fallback character 63 in inverse video,
not the character 64 + 27 = 91 that the byte value < 32 rule of the claim
would require. -/
theorem claim_C8_cex :
    Row.draw uwidth rowEsc 0 1 = REVERSE_VIDEO ++ [63] ++ RESET_FMT ++ RESET_FMT ∧
      (63 : Nat) ≠ 64 + 27 := by
  exact ⟨rfl, by decide⟩

/-- C8 (amended): in the character loop of Row::draw, a control character
c is emitted in inverse video as the character 64 + c when c ≤ 26 and as
63 otherwise (bytes 27 to 31 and 127), followed by a format reset; the
previously active highlight color is re-emitted exactly when it is not the
Normal type, and the current type is left unchanged. -/
theorem claim_C8 (w : Nat → Option Nat) (seg : Option (Nat × Nat)) (cur : HlType)
    (rx c : Nat) (hl : HlType) (h : isAsciiControl c = true) :
    (drawStep w seg cur rx c hl).1 =
      REVERSE_VIDEO ++ [if c ≤ 26 then 64 + c else 63] ++ RESET_FMT ++
        (if cur = HlType.normal then [] else hlColor cur) ∧
      (drawStep w seg cur rx c hl).2.1 = cur := by
  constructor
  · unfold drawStep
    rw [if_pos h]
    by_cases h1 : c ≤ 26
    · have h2 : 64 + c < 128 := by omega
      by_cases h3 : cur = HlType.normal <;>
        simp [h1, h3, utf8Enc, h2]
    · by_cases h3 : cur = HlType.normal <;>
        simp [h1, h3, utf8Enc]
  · unfold drawStep
    rw [if_pos h]

/-! ## Structure of the mapping arrays built by the rendering pass -/

theorem totalLen8_eq (cs : List Nat) : totalLen8 cs = (utf8Encode cs).length := by
  induction cs with
  | nil => rfl
  | cons c cs ih =>
    simp only [totalLen8, utf8Encode, List.map_cons, List.sum_cons, List.flatten_cons,
      List.length_append] at ih ⊢
    rw [ih]
    rfl

theorem rpa_A_len (w : Nat → Option Nat) (tab : Nat) (cs : List Nat) (rx cx : Nat) :
    (renderPassAux w tab cs rx cx).2.1.length = totalLen8 cs + 1 := by
  induction cs generalizing rx cx with
  | nil => simp [renderPassAux, totalLen8]
  | cons c cs ih =>
    simp only [renderPassAux, List.length_append, List.length_replicate, ih, totalLen8,
      List.map_cons, List.sum_cons]
    omega

theorem rpa_B_len (w : Nat → Option Nat) (tab : Nat) (cs : List Nat) (rx cx : Nat) :
    (renderPassAux w tab cs rx cx).2.2.length = colsOf w tab cs rx + 1 := by
  induction cs generalizing rx cx with
  | nil => simp [renderPassAux, colsOf]
  | cons c cs ih =>
    simp only [renderPassAux, List.length_append, List.length_replicate, ih, colsOf]
    omega

theorem rpa_A_ne_nil (w : Nat → Option Nat) (tab : Nat) (cs : List Nat) (rx cx : Nat) :
    (renderPassAux w tab cs rx cx).2.1 ≠ [] := by
  intro h
  have hl := rpa_A_len w tab cs rx cx
  rw [h] at hl
  simp at hl

theorem rpa_B_ne_nil (w : Nat → Option Nat) (tab : Nat) (cs : List Nat) (rx cx : Nat) :
    (renderPassAux w tab cs rx cx).2.2 ≠ [] := by
  intro h
  have hl := rpa_B_len w tab cs rx cx
  rw [h] at hl
  simp at hl

theorem rpa_A_last (w : Nat → Option Nat) (tab : Nat) (cs : List Nat) (rx cx : Nat) :
    (renderPassAux w tab cs rx cx).2.1.getLast? = some (rx + colsOf w tab cs rx) := by
  induction cs generalizing rx cx with
  | nil => simp [renderPassAux, colsOf]
  | cons c cs ih =>
    simp only [renderPassAux, colsOf]
    rw [List.getLast?_append_of_ne_nil _ (rpa_A_ne_nil w tab cs _ _), ih]
    rw [Nat.add_assoc]

theorem rpa_B_last (w : Nat → Option Nat) (tab : Nat) (cs : List Nat) (rx cx : Nat) :
    (renderPassAux w tab cs rx cx).2.2.getLast? = some (cx + totalLen8 cs) := by
  induction cs generalizing rx cx with
  | nil => simp [renderPassAux, totalLen8]
  | cons c cs ih =>
    simp only [renderPassAux, totalLen8, List.map_cons, List.sum_cons]
    rw [List.getLast?_append_of_ne_nil _ (rpa_B_ne_nil w tab cs _ _), ih]
    rw [totalLen8, Nat.add_assoc, Nat.add_comm (utf8Len c)]

theorem rpa_A_lb (w : Nat → Option Nat) (tab : Nat) (cs : List Nat) (rx cx : Nat) :
    ∀ y ∈ (renderPassAux w tab cs rx cx).2.1, rx ≤ y := by
  induction cs generalizing rx cx with
  | nil =>
    intro y hy
    simp [renderPassAux] at hy
    omega
  | cons c cs ih =>
    intro y hy
    simp only [renderPassAux, List.mem_append, List.mem_replicate] at hy
    rcases hy with hy | hy
    · omega
    · exact Nat.le_trans (Nat.le_add_right rx _) (ih _ _ y hy)

theorem rpa_B_lb (w : Nat → Option Nat) (tab : Nat) (cs : List Nat) (rx cx : Nat) :
    ∀ y ∈ (renderPassAux w tab cs rx cx).2.2, cx ≤ y := by
  induction cs generalizing rx cx with
  | nil =>
    intro y hy
    simp [renderPassAux] at hy
    omega
  | cons c cs ih =>
    intro y hy
    simp only [renderPassAux, List.mem_append, List.mem_replicate] at hy
    rcases hy with hy | hy
    · omega
    · exact Nat.le_trans (Nat.le_add_right cx _) (ih _ _ y hy)

theorem rpa_A_chain (w : Nat → Option Nat) (tab : Nat) (cs : List Nat) (rx cx : Nat) :
    List.Chain' (· ≤ ·) (renderPassAux w tab cs rx cx).2.1 := by
  induction cs generalizing rx cx with
  | nil => simp [renderPassAux]
  | cons c cs ih =>
    simp only [renderPassAux]
    refine List.chain'_append.mpr ⟨List.chain'_replicate_of_rel _ (Nat.le_refl rx), ih _ _, ?_⟩
    intro x hx y hy
    have hx2 := List.eq_of_mem_replicate (List.mem_of_mem_getLast? hx)
    have hy2 := rpa_A_lb w tab cs _ _ y (List.mem_of_mem_head? hy)
    omega

theorem rpa_B_chain (w : Nat → Option Nat) (tab : Nat) (cs : List Nat) (rx cx : Nat) :
    List.Chain' (· ≤ ·) (renderPassAux w tab cs rx cx).2.2 := by
  induction cs generalizing rx cx with
  | nil => simp [renderPassAux]
  | cons c cs ih =>
    simp only [renderPassAux]
    refine List.chain'_append.mpr ⟨List.chain'_replicate_of_rel _ (Nat.le_refl cx), ih _ _, ?_⟩
    intro x hx y hy
    have hx2 := List.eq_of_mem_replicate (List.mem_of_mem_getLast? hx)
    have hy2 := rpa_B_lb w tab cs _ _ y (List.mem_of_mem_head? hy)
    omega

theorem rxAt_lb (w : Nat → Option Nat) (tab : Nat) (cs : List Nat) (rx n : Nat) :
    rx ≤ rxAt w tab cs rx n := by
  induction cs generalizing rx n with
  | nil => cases n <;> simp [rxAt]
  | cons c cs ih =>
    cases n with
    | zero => simp [rxAt]
    | succ n =>
      simp only [rxAt]
      exact Nat.le_trans (Nat.le_add_right rx _) (ih _ n)

/-- The round-trip core: at a character start, cx2rx yields the character's
first column and rx2cx at that column yields the character's byte offset,
provided the character occupies at least one column. -/
theorem rpa_key {w : Nat → Option Nat} {tab : Nat} (ht : 1 ≤ tab) :
    ∀ (cs : List Nat) (rx cx n : Nat), n < cs.length →
      (cs.getD n 0 = 9 ∨ 1 ≤ (w (cs.getD n 0)).getD 1) →
      (renderPassAux w tab cs rx cx).2.1.getD (byteOff cs n) 0 = rxAt w tab cs rx n ∧
        (renderPassAux w tab cs rx cx).2.2.getD (rxAt w tab cs rx n - rx) 0 =
          cx + byteOff cs n := by
  intro cs
  induction cs with
  | nil =>
    intro rx cx n hn _
    simp at hn
  | cons c cs ih =>
    intro rx cx n hn hw
    cases n with
    | zero =>
      constructor
      · simp only [renderPassAux, byteOff, rxAt]
        rw [List.getD_append _ _ _ _ (by simpa using utf8Len_pos c)]
        rw [List.getD_eq_getElem _ _ (by simpa using utf8Len_pos c)]
        simp
      · simp only [renderPassAux, byteOff, rxAt, Nat.sub_self]
        have hpos : 1 ≤ rendCols w tab rx c := by
          refine rendCols_pos rx ht ?_
          simpa using hw
        rw [List.getD_append _ _ _ _ (by simpa using hpos)]
        rw [List.getD_eq_getElem _ _ (by simpa using hpos)]
        simp
    | succ n =>
      have hn2 : n < cs.length := by simpa using hn
      have hw2 : cs.getD n 0 = 9 ∨ 1 ≤ (w (cs.getD n 0)).getD 1 := by
        simpa [List.getD_cons_succ] using hw
      have ih2 := ih (rx + rendCols w tab rx c) (cx + utf8Len c) n hn2 hw2
      constructor
      · simp only [renderPassAux, byteOff, rxAt]
        rw [List.getD_append_right _ _ _ _ (by simp)]
        simpa using ih2.1
      · simp only [renderPassAux, byteOff, rxAt]
        have hR := rxAt_lb w tab cs (rx + rendCols w tab rx c) n
        rw [List.getD_append_right _ _ _ _ (by simp; omega)]
        have harith : rxAt w tab cs (rx + rendCols w tab rx c) n - rx -
            (List.replicate (rendCols w tab rx c) cx).length =
            rxAt w tab cs (rx + rendCols w tab rx c) n - (rx + rendCols w tab rx c) := by
          simp
          omega
        rw [harith, ih2.2]
        omega

/-- C1 (amended): after Row::update with tab width at least 1, composing
the two mapping arrays round-trips every start-of-character byte offset
whose character occupies at least one render column (tabs always do);
zero-width characters such as combining marks are excluded, as shown by
the counterexample. -/
theorem claim_C1 (w : Nat → Option Nat) (r0 : Row) (conf : SyntaxConf) (st : HlState)
    (tab : Nat) (r : Row) (st2 : HlState) (n : Nat) (ht : 1 ≤ tab)
    (h : Row.update w r0 conf st tab = some (r, st2))
    (hn : n < (utf8DecodeLossy r0.chars).length)
    (hw : (utf8DecodeLossy r0.chars).getD n 0 = 9 ∨
      1 ≤ (w ((utf8DecodeLossy r0.chars).getD n 0)).getD 1) :
    r.rx2cx.getD (r.cx2rx.getD (byteOff (utf8DecodeLossy r0.chars) n) 0) 0 =
      byteOff (utf8DecodeLossy r0.chars) n := by
  have hi := update_inv h
  rw [hi.2.2.2.1, hi.2.2.2.2.1]
  have hk := rpa_key ht (utf8DecodeLossy r0.chars) 0 0 n hn hw
  rw [hk.1]
  have h2 := hk.2
  rw [Nat.sub_zero] at h2
  simpa using h2

/-- C1 (witness): the theorem applied to the row "a\tb" at the tab
character (byte offset 1, occupying three columns). -/
theorem claim_C1_witness :
    rowTab.rx2cx.getD (rowTab.cx2rx.getD (byteOff (utf8DecodeLossy [97, 9, 98]) 1) 0) 0 =
      byteOff (utf8DecodeLossy [97, 9, 98]) 1 :=
  claim_C1 uwidth (Row.new [97, 9, 98]) confNone .normal 4 rowTab .normal 1 (by decide)
    rfl (by decide) (Or.inl (by decide))

/-- C2 (amended): after Row::update, both mapping arrays are monotonically
non-decreasing; cx2rx has one entry per byte of the lossily decoded text
plus a sentinel, ending at the rendered column count; rx2cx has one entry
per rendered column plus a sentinel, ending at the decoded byte length.
Whenever chars is valid UTF-8 the decoded byte length equals chars.len(),
recovering the lengths of the original claim; the counterexample shows
those lengths fail on invalid UTF-8 (validity is sufficient here, not
necessary: a truncated sequence may decode to a replacement character of
the same byte length). -/
theorem claim_C2 (w : Nat → Option Nat) (r0 : Row) (conf : SyntaxConf) (st : HlState)
    (tab : Nat) (r : Row) (st2 : HlState) (_ : 1 ≤ tab)
    (h : Row.update w r0 conf st tab = some (r, st2)) :
    List.Chain' (· ≤ ·) r.cx2rx ∧ List.Chain' (· ≤ ·) r.rx2cx ∧
      r.cx2rx.length = totalLen8 (utf8DecodeLossy r0.chars) + 1 ∧
      r.rx2cx.length = colsOf w tab (utf8DecodeLossy r0.chars) 0 + 1 ∧
      r.cx2rx.getLast? = some (colsOf w tab (utf8DecodeLossy r0.chars) 0) ∧
      r.rx2cx.getLast? = some (totalLen8 (utf8DecodeLossy r0.chars)) ∧
      (Utf8Valid r0.chars → totalLen8 (utf8DecodeLossy r0.chars) = r0.chars.length) := by
  have hi := update_inv h
  rw [hi.2.2.2.1, hi.2.2.2.2.1]
  refine ⟨rpa_A_chain w tab _ 0 0, rpa_B_chain w tab _ 0 0, rpa_A_len w tab _ 0 0,
    rpa_B_len w tab _ 0 0, ?_, ?_, ?_⟩
  · have := rpa_A_last w tab (utf8DecodeLossy r0.chars) 0 0
    simpa using this
  · have := rpa_B_last w tab (utf8DecodeLossy r0.chars) 0 0
    simpa using this
  · intro hv
    rw [totalLen8_eq, hv]

/-- C2 (witness): the theorem applied to the updated row "a\tb" with tab
width 4. -/
theorem claim_C2_witness :
    List.Chain' (· ≤ ·) rowTab.cx2rx ∧ List.Chain' (· ≤ ·) rowTab.rx2cx ∧
      rowTab.cx2rx.length = totalLen8 (utf8DecodeLossy [97, 9, 98]) + 1 ∧
      rowTab.rx2cx.length = colsOf uwidth 4 (utf8DecodeLossy [97, 9, 98]) 0 + 1 ∧
      rowTab.cx2rx.getLast? = some (colsOf uwidth 4 (utf8DecodeLossy [97, 9, 98]) 0) ∧
      rowTab.rx2cx.getLast? = some (totalLen8 (utf8DecodeLossy [97, 9, 98])) ∧
      (Utf8Valid [97, 9, 98] → totalLen8 (utf8DecodeLossy [97, 9, 98]) = 3) :=
  claim_C2 uwidth (Row.new [97, 9, 98]) confNone .normal 4 rowTab .normal (by decide) rfl

/-- C7 (amended): keyword highlight entries are produced only at positions
at start of line or right after a separator, and only for keyword
occurrences followed by a separator or end of line; the converse direction
fails (see the counterexample: an occurrence at a token boundary inside a
longer match keeps the longer match's class). In particular, on
"keyword1 keyword12" with keyword "keyword1" configured, only the first
occurrence is classified Keyword1 and every later byte is Normal. -/
theorem claim_C7 :
    (∀ conf line i, prevSep line i = false → kwPart conf line i = []) ∧
      (∀ (line : List Nat) (i : Nat) (kw : List Nat), findStrAt line i kw = true →
        sFilter line i kw = true →
        i + kw.length ≤ line.length ∧
          (i + kw.length = line.length ∨ isSep (line.getD (i + kw.length) 0) = true)) ∧
      (Row.update uwidth (Row.new (kwd1 ++ [32] ++ kwd1 ++ [50])) confKwd1 .normal 4).map
          (fun out => (out.1.hl, out.2)) =
        some (List.replicate 8 HlType.keyword1 ++ List.replicate 10 HlType.normal,
          .normal) := by
  refine ⟨?_, ?_, rfl⟩
  · intro conf line i hps
    simp [kwPart, hps]
  · intro line i kw hf hs
    have hf2 : i + kw.length ≤ line.length := by
      simp only [findStrAt, Bool.and_eq_true, decide_eq_true_eq] at hf
      exact hf.1
    refine ⟨hf2, ?_⟩
    rcases hg : line.get? (i + kw.length) with _ | c
    · left
      have := List.get?_eq_none.mp hg
      omega
    · right
      have hd : line.getD (i + kw.length) 0 = c := by
        simp [List.getD_eq_getElem?_getD, ← List.get?_eq_getElem?, hg]
      rw [hd]
      simp only [sFilter, hg] at hs
      exact hs

/-- C7 (witness): the first part applied at position 1 of "aa" (previous
byte not a separator), and the second applied to the keyword "fn"
matching the whole line "fn". -/
theorem claim_C7_witness :
    kwPart confKwd1 [97, 97] 1 = [] ∧
      (0 + 2 ≤ 2 ∧ (0 + 2 = 2 ∨ isSep ([102, 110].getD (0 + 2) 0) = true)) :=
  ⟨claim_C7.1 confKwd1 [97, 97] 1 (by decide),
    claim_C7.2.1 [102, 110] 0 [102, 110] (by decide) (by decide)⟩

/-- C8 (witness): the amended theorem applied to the control byte 1 drawn
while the Number color is active. -/
theorem claim_C8_witness :
    (drawStep uwidth none HlType.number 0 1 HlType.normal).1 =
      REVERSE_VIDEO ++ [65] ++ RESET_FMT ++ hlColor HlType.number ∧
      (drawStep uwidth none HlType.number 0 1 HlType.normal).2.1 = HlType.number :=
  claim_C8 uwidth none HlType.number 0 1 HlType.normal rfl

end Kibi
